import Mathlib

set_option maxHeartbeats 1000000

noncomputable section

/-!
Verification development for the three numerical engines of the
materials-simulation demo repository: the Cahn-Hilliard spectral solver
(precompute_spinodal.py), the Ising Metropolis sampler
(precompute_ising.py), and the Lennard-Jones MD integrator
(precompute_melting.py).  Machine floats are modelled by real numbers,
numpy arrays by functions out of Fin types, and the random draws consumed
by the stochastic engines are passed in explicitly as inputs.
-/

namespace Spinodal

/-- Dimensionless free-energy coefficient, A = 1.0 in the source. -/
def A : ℝ := 1

/-- Mobility, M = 1.0 in the source. -/
def M : ℝ := 1

/-- Dimensionless interface-energy coefficient, kappa = 256.0 in the source. -/
def kappa : ℝ := 256

/-- Grid side, Nx = Ny = 256 in the source. -/
abbrev Nx : ℕ := 256

/-- Grid spacing dx = 1.0. -/
def dx : ℝ := 1

/-- Time step dt = 1e-2. -/
def dt : ℝ := 1e-2

/-- Real-space concentration field on the 256 x 256 periodic grid. -/
abbrev RGrid := Fin Nx → Fin Nx → ℝ

/-- Fourier-space field on the 256 x 256 grid. -/
abbrev CGrid := Fin Nx → Fin Nx → ℂ

/-- np.fft.fftfreq n (with d = 1): frequency i/n for i below the midpoint,
(i - n)/n for the rest. -/
def fftfreq (n i : ℕ) : ℝ := if i < (n + 1) / 2 then (i : ℝ) / n else ((i : ℝ) - n) / n

/-- kx = 2 pi * fftfreq(Nx, dx); the source uses the same axis for ky. -/
def kx (i : Fin Nx) : ℝ := 2 * Real.pi * fftfreq Nx i / dx

/-- k2 = np.add.outer(kx ** 2, ky ** 2). -/
def k2 (i j : Fin Nx) : ℝ := kx i ^ 2 + kx j ^ 2

/-- Forward twiddle factor exp(-2 pi I k x / n) used by np.fft.fftn. -/
def wneg (n k x : ℕ) : ℂ := Complex.exp (-(2 * Real.pi * Complex.I * k * x / n))

/-- Inverse twiddle factor exp(2 pi I k x / n) used by np.fft.ifftn. -/
def wpos (n k x : ℕ) : ℂ := Complex.exp (2 * Real.pi * Complex.I * k * x / n)

/-- np.fft.fftn on the 2D grid. -/
def dft2 (g : CGrid) (k l : Fin Nx) : ℂ :=
  ∑ x : Fin Nx, ∑ y : Fin Nx, g x y * wneg Nx k x * wneg Nx l y

/-- np.fft.fftn applied to a real-valued grid. -/
def dft2R (g : RGrid) (k l : Fin Nx) : ℂ :=
  ∑ x : Fin Nx, ∑ y : Fin Nx, (g x y : ℂ) * wneg Nx k x * wneg Nx l y

/-- np.fft.ifftn on the 2D grid. -/
def idft2 (F : CGrid) (x y : Fin Nx) : ℂ :=
  (∑ k : Fin Nx, ∑ l : Fin Nx, F k l * wpos Nx k x * wpos Nx l y) / ((Nx : ℂ) * Nx)

/-- One Fourier-space time step of the Cahn-Hilliard solver, as performed in
the loop body of run_simulation: form the real-space chemical potential
mu = mu_func(c) - kappa * ifftn(k2 * c_hat).real, transform it, apply the
semi-implicit update, and multiply by the noise filter when
damping_factor > 0. -/
def chStep (muFunc : RGrid → RGrid) (damping : ℝ) (cHat : CGrid) : CGrid :=
  let cReal : RGrid := fun x y => (idft2 cHat x y).re
  let muReal : RGrid := fun x y =>
    muFunc cReal x y - kappa * (idft2 (fun k l => (k2 k l : ℂ) * cHat k l) x y).re
  let muHat := dft2R muReal
  let next : CGrid := fun k l =>
    (cHat k l - ((dt * M * k2 k l : ℝ) : ℂ) * muHat k l) /
      (1 + ((dt * M * kappa * k2 k l ^ 2 : ℝ) : ℂ))
  if damping > 0 then
    fun k l => next k l * ((Real.exp (-damping * k2 k l * dt) : ℝ) : ℂ)
  else next

/-- State threaded through the loop of run_simulation. -/
structure SimState where
  cHat : CGrid
  frames : List RGrid
  times : List ℝ
  saveIdx : ℕ

/-- Body of the loop of run_simulation at loop counter step: advance c_hat,
then record a real-space snapshot when step matches the save point at the
cursor. -/
def simStep (muFunc : RGrid → RGrid) (damping : ℝ) (savePoints : List ℕ)
    (s : SimState) (step : ℕ) : SimState :=
  let cHat' := chStep muFunc damping s.cHat
  if s.saveIdx < savePoints.length ∧ step = savePoints.getD s.saveIdx 0 then
    ⟨cHat', s.frames ++ [fun x y => (idft2 cHat' x y).re],
      s.times ++ [step * dt], s.saveIdx + 1⟩
  else
    ⟨cHat', s.frames, s.times, s.saveIdx⟩

/-- run_simulation: start from c_hat = fftn(c_initial) with the initial field
as frame 0 and time 0, then iterate the loop body for step = 1..n_steps.
The np.save side effect is dropped; the returned state holds the frames. -/
def run_simulation (cInitial : RGrid) (muFunc : RGrid → RGrid) (nSteps : ℕ)
    (savePoints : List ℕ) (damping : ℝ) : SimState :=
  (List.range' 1 nSteps).foldl (simStep muFunc damping savePoints)
    ⟨dft2R cInitial, [cInitial], [0], 0⟩

/-- The spatial mean of a real-space field. -/
def gridMean (g : RGrid) : ℝ := (∑ x : Fin Nx, ∑ y : Fin Nx, g x y) / ((Nx : ℝ) * Nx)

/-- The update rule of one time step as worded in the specification:
mu = fprime(c) - kappa * (inverse transform of k2 * c_hat) in real space,
then c_hat ← (c_hat - dt M k2 mu_hat) / (1 + dt M kappa k2 ^ 2), the k⁴
stiff term implicit in the denominator, the nonlinear term explicit. -/
def chStepSpec (muFunc : RGrid → RGrid) (cHat : CGrid) : CGrid :=
  let cReal : RGrid := fun x y => (idft2 cHat x y).re
  let muReal : RGrid := fun x y =>
    muFunc cReal x y - kappa * (idft2 (fun k l => (k2 k l : ℂ) * cHat k l) x y).re
  let muHat := dft2R muReal
  fun k l =>
    (cHat k l - ((dt * M * k2 k l : ℝ) : ℂ) * muHat k l) /
      (1 + ((dt * M * kappa * k2 k l ^ 2 : ℝ) : ℂ))

end Spinodal

namespace Ising

/-- Lattice side L = 64. -/
abbrev L : ℕ := 64

/-- Boltzmann constant, normalized: kB = 1.0. -/
def kB : ℝ := 1

/-- A spin configuration on the periodic L x L lattice; values are meant to
stay in {-1, +1}. -/
abbrev Spins := Fin L → Fin L → ℤ

/-- Sum of the four periodic nearest neighbours of site (i, j); Fin addition
and subtraction realize the (i ± 1) % L wraparound of the source. -/
def nnSum (sp : Spins) (i j : Fin L) : ℤ :=
  sp (i + 1) j + sp (i - 1) j + sp i (j + 1) + sp i (j - 1)

/-- dE = 2 * s * nn, the energy change (in units of the coupling J) for
flipping the spin at (i, j). -/
def deltaE (sp : Spins) (i j : Fin L) : ℤ := 2 * sp i j * nnSum sp i j

/-- spins[i, j] = -s. -/
def flipAt (sp : Spins) (i j : Fin L) : Spins :=
  fun a b => if a = i ∧ b = j then -(sp i j) else sp a b

/-- One elementary Metropolis proposal, the body of the inner loop of
metropolis_step.  The randomly chosen site (i, j) and the uniform draw
u = np.random.rand() are passed in explicitly; the flip is performed iff
dE <= 0 or u < exp(-beta * dE). -/
def proposal (beta : ℝ) (sp : Spins) (i j : Fin L) (u : ℝ) : Spins :=
  if deltaE sp i j ≤ 0 ∨ u < Real.exp (-beta * deltaE sp i j) then flipAt sp i j else sp

/-- metropolis_step: one full-lattice sweep of L * L elementary proposals;
the list carries the L * L random site choices and uniform draws of one
sweep. -/
def metropolis_step (beta : ℝ) (sp : Spins) (rs : List ((Fin L × Fin L) × ℝ)) : Spins :=
  rs.foldl (fun s r => proposal beta s r.1.1 r.1.2 r.2) sp

/-- spins.mean(): the magnetization per site. -/
def mag (sp : Spins) : ℝ := (∑ i : Fin L, ∑ j : Fin L, (sp i j : ℝ)) / ((L : ℝ) * L)

/-- simulate: steps_eq discarded equilibration sweeps, then measurement
sweeps accumulating m_sum += abs(spins.mean()); returns the time average
m_sum / steps_meas together with the final configuration.  Each list entry
is the random input of one sweep. -/
def simulate (beta : ℝ) (eqRs measRs : List (List ((Fin L × Fin L) × ℝ)))
    (sp : Spins) : ℝ × Spins :=
  let sp1 := eqRs.foldl (metropolis_step beta) sp
  let res := measRs.foldl
    (fun (acc : ℝ × Spins) rs =>
      let sp' := metropolis_step beta acc.2 rs
      (acc.1 + |mag sp'|, sp'))
    ((0 : ℝ), sp1)
  (res.1 / measRs.length, res.2)

/-- beta = 1 / (kB * T / J) if T > 0 else 1e6, from the material sweep loop. -/
def betaOf (J T : ℝ) : ℝ := if T > 0 then 1 / (kB * T / J) else 1e6

/-- The uniform all-(+1) initial lattice, np.ones((L, L)). -/
def allOnes : Spins := fun _ _ => 1

/-- Modelled from the spec: the elementary step as the specification words
it, accepting an unfavourable flip with probability exp(-dE / (kB * T))
(no coupling J in the exponent).  Used only to compare against the
source-derived proposal. -/
def proposalClaim (T : ℝ) (sp : Spins) (i j : Fin L) (u : ℝ) : Spins :=
  if deltaE sp i j ≤ 0 ∨ u < Real.exp (-(deltaE sp i j : ℝ) / (kB * T)) then
    flipAt sp i j
  else sp

end Ising

namespace Melting

/-- Ncell = 6 unit cells per axis. -/
def Ncell : ℕ := 6

/-- Lattice constant a = 1.0. -/
def aLat : ℝ := 1

/-- Atom mass in LJ units, mass = 1.0. -/
def mass : ℝ := 1

/-- Time step dt = 0.001. -/
def dt : ℝ := 1e-3

/-- MD steps per temperature stage, steps_per_T = 400. -/
def steps_per_T : ℕ := 400

/-- Snapshot interval, record_interval = 50. -/
def record_interval : ℕ := 50

/-- epsilon = 1.0. -/
def epsilon : ℝ := 1

/-- sigma = 1.0. -/
def sigma : ℝ := 1

/-- Cutoff radius rc = 2.5 * sigma. -/
def rc : ℝ := 2.5 * sigma

/-- Box side boxL = Ncell * a = 6. -/
def boxL : ℝ := (Ncell : ℝ) * aLat

/-- rc2 = rc ** 2. -/
def rc2 : ℝ := rc ^ 2

/-- Natoms = Ncell ^ 3 = 216. -/
abbrev Natoms : ℕ := 216

/-- Particle positions, an [N, 3] array. -/
abbrev Positions := Fin Natoms → Fin 3 → ℝ

/-- Particle velocities, an [N, 3] array. -/
abbrev Velocities := Fin Natoms → Fin 3 → ℝ

/-- The temperature ramp np.linspace(0.2, 2.0, 40). -/
def temps : List ℝ := (List.range 40).map fun i : ℕ => 0.2 + (i : ℝ) * (1.8 / 39)

/-- np.rint: round to the nearest integer, ties to the nearest even integer
(IEEE round-half-even, the rounding used by numpy). -/
def rint (x : ℝ) : ℤ :=
  if Int.fract x < 1 / 2 then ⌊x⌋
  else if 1 / 2 < Int.fract x then ⌊x⌋ + 1
  else if Even ⌊x⌋ then ⌊x⌋ else ⌊x⌋ + 1

/-- Minimum-image reduction of one displacement component:
rij -= boxL * np.rint(rij / boxL). -/
def minImage (x : ℝ) : ℝ := x - boxL * (rint (x / boxL) : ℝ)

/-- The initial regular cubic lattice: entry n of the row-major list
[(i, j, k) for i for j for k] scaled by the lattice constant. -/
def pos_initial : Positions := fun n d =>
  (if d = 0 then ((n : ℕ) / 36 : ℕ) else if d = 1 then ((n : ℕ) / 6 % 6 : ℕ)
    else ((n : ℕ) % 6 : ℕ)) * aLat

/-- Minimum-image displacement component rij(d) = positions[j][d] - positions[i][d],
wrapped. -/
def pairDisp (p : Positions) (i j : Fin Natoms) (d : Fin 3) : ℝ :=
  minImage (p j d - p i d)

/-- Squared minimum-image pair distance dist2 = sum(rij ** 2). -/
def dist2 (p : Positions) (i j : Fin Natoms) : ℝ := ∑ d : Fin 3, pairDisp p i j d ^ 2

/-- The masked Lennard-Jones pair force term of the inner loop of
compute_forces: zero unless 0 < dist2 < rc2, otherwise
f_scalar * rij with f_scalar = 24 eps (2 inv_r12 - inv_r6) / dist2. -/
def maskedFij (p : Positions) (i j : Fin Natoms) (d : Fin 3) : ℝ :=
  if dist2 p i j < rc2 ∧ 0 < dist2 p i j then
    let inv_r2 := sigma ^ 2 / dist2 p i j
    let inv_r6 := inv_r2 ^ 3
    let inv_r12 := inv_r6 ^ 2
    24 * epsilon * (2 * inv_r12 - inv_r6) / dist2 p i j * pairDisp p i j d
  else 0

/-- The masked Lennard-Jones pair potential term 4 eps (inv_r12 - inv_r6)
accumulated by the same loop. -/
def maskedPot (p : Positions) (i j : Fin Natoms) : ℝ :=
  if dist2 p i j < rc2 ∧ 0 < dist2 p i j then
    let inv_r2 := sigma ^ 2 / dist2 p i j
    let inv_r6 := inv_r2 ^ 3
    let inv_r12 := inv_r6 ^ 2
    4 * epsilon * (inv_r12 - inv_r6)
  else 0

/-- Per-particle force accumulator. -/
abbrev Forces := Fin Natoms → Fin 3 → ℝ

/-- Force-accumulation effect of iteration i of the loop of compute_forces:
forces[i] += sum of the masked pair terms over j > i, and forces[j] -= that
term for every j > i (the term being zero outside the mask). -/
def forcesBody (p : Positions) (F : Forces) (i : Fin Natoms) : Forces :=
  fun k d =>
    if k = i then F k d + ∑ j ∈ Finset.Ioi i, maskedFij p i j d
    else if i < k then F k d - maskedFij p i k d
    else F k d

/-- Combined loop body of compute_forces, also accumulating the potential. -/
def forcesPotBody (p : Positions) (s : Forces × ℝ) (i : Fin Natoms) : Forces × ℝ :=
  (forcesBody p s.1 i, s.2 + ∑ j ∈ Finset.Ioi i, maskedPot p i j)

/-- compute_forces: fold the loop body over the particle indices, starting
from zero forces and zero potential.  (The source loops i over
range(Natoms - 1); the final iteration i = Natoms - 1 it omits has an empty
inner range and is a no-op, so folding over all indices is the same map.) -/
def computeForces (p : Positions) : Forces × ℝ :=
  (List.finRange Natoms).foldl (forcesPotBody p) (fun _ _ => 0, 0)

/-- The net force contribution particle i receives from particle j in
compute_forces: the masked pair term when i < j (added to forces[i]), and
its negative when j < i (forces[i] gets -fij from iteration j). -/
def contribTo (p : Positions) (i j : Fin Natoms) (d : Fin 3) : ℝ :=
  if i < j then maskedFij p i j d else -(maskedFij p j i d)

/-- np.clip(vel, -100.0, 100.0) on one component. -/
def clampV (x : ℝ) : ℝ := min (max x (-100)) 100

/-- Python float modulo: pos %= boxL maps x to x - boxL * floor(x / boxL). -/
def wrapPos (x : ℝ) : ℝ := x - boxL * (⌊x / boxL⌋ : ℝ)

/-- Instantaneous kinetic temperature current_T = 2 * kin / (3 * N) with
kin = 0.5 * mass * sum(vel ** 2), for an n-particle velocity array. -/
def kinTemp (n : ℕ) (v : Fin n → Fin 3 → ℝ) : ℝ :=
  2 * (0.5 * mass * ∑ i : Fin n, ∑ d : Fin 3, v i d ^ 2) / (3 * n)

/-- The velocity-rescaling thermostat applied after each full step:
vel *= np.sqrt(T / (current_T + 1e-9)). -/
def rescale (n : ℕ) (T : ℝ) (v : Fin n → Fin 3 → ℝ) : Fin n → Fin 3 → ℝ :=
  fun i d => v i d * Real.sqrt (T / (kinTemp n v + 1e-9))

/-- One full integration step of the MD loop at stage target temperature T:
half-kick, clamp, drift and wrap, force recomputation, half-kick, clamp,
thermostat. -/
def mdStep (T : ℝ) (pv : Positions × Velocities) : Positions × Velocities :=
  let F1 := (computeForces pv.1).1
  let v1 := fun i d => clampV (pv.2 i d + 0.5 * F1 i d / mass * dt)
  let p1 := fun i d => wrapPos (pv.1 i d + v1 i d * dt)
  let F2 := (computeForces p1).1
  let v2 := fun i d => clampV (v1 i d + 0.5 * F2 i d / mass * dt)
  (p1, rescale Natoms T v2)

/-- Mean-squared displacement against the fixed t = 0 reference positions,
with minimum-image unwrapping of the displacement before squaring. -/
def msd (p : Positions) : ℝ :=
  (∑ i : Fin Natoms, ∑ d : Fin 3, minImage (p i d - pos_initial i d) ^ 2) / (Natoms : ℝ)

/-- Number of RDF bins, n_bins = 50. -/
abbrev n_bins : ℕ := 50

/-- r_max = boxL / 2. -/
def r_max : ℝ := boxL / 2

/-- Histogram bin edges of np.histogram(..., bins=50, range=(0, r_max)). -/
def binEdge (b : ℕ) : ℝ := r_max * b / n_bins

/-- Bin centers r = (bin_edges[:-1] + bin_edges[1:]) / 2. -/
def binCenter (b : Fin n_bins) : ℝ := (binEdge b + binEdge (b + 1)) / 2

/-- dr = r[1] - r[0]. -/
def dr : ℝ := binCenter ⟨1, by decide⟩ - binCenter ⟨0, by decide⟩

/-- Membership of a distance in histogram bin b: half-open bins, the last
bin closed, values outside [0, r_max] discarded. -/
def inBin (b : Fin n_bins) (dist : ℝ) : Prop :=
  binEdge b ≤ dist ∧ (if (b : ℕ) = n_bins - 1 then dist ≤ r_max else dist < binEdge (b + 1))

open scoped Classical in
/-- Pair-distance histogram of compute_rdf: one count per unordered pair
(i < j), using the minimum-image distance. -/
def rdfHist (p : Positions) (b : Fin n_bins) : ℕ :=
  (Finset.univ.filter fun q : Fin Natoms × Fin Natoms =>
    q.1 < q.2 ∧ inBin b (Real.sqrt (dist2 p q.1 q.2))).card

/-- Number density rho = n_atoms / boxL ** 3. -/
def rho : ℝ := (Natoms : ℝ) / boxL ^ 3

/-- compute_rdf normalization: g_r = hist / (n_ideal * n_atoms * 0.5) with
n_ideal = 4 pi r^2 dr * rho. -/
def rdf (p : Positions) (b : Fin n_bins) : ℝ :=
  (rdfHist p b : ℝ) / (4 * Real.pi * binCenter b ^ 2 * dr * rho * Natoms * 0.5)

/-- State threaded through the MD loop: current phase-space point plus the
three recorded series. -/
structure MDState where
  pos : Positions
  vel : Velocities
  snaps : List Positions
  msds : List ℝ
  rdfs : List (Fin n_bins → ℝ)

/-- Body of the inner loop over step = 0..steps_per_T-1 at stage target T:
integrate one step, then record position copy, MSD and RDF when
step % record_interval == 0. -/
def stageStep (T : ℝ) (s : MDState) (step : ℕ) : MDState :=
  let pv := mdStep T (s.pos, s.vel)
  if step % record_interval = 0 then
    ⟨pv.1, pv.2, s.snaps ++ [pv.1], s.msds ++ [msd pv.1], s.rdfs ++ [rdf pv.1]⟩
  else
    ⟨pv.1, pv.2, s.snaps, s.msds, s.rdfs⟩

/-- One temperature stage: steps_per_T iterations of the loop body. -/
def mdStage (T : ℝ) (s : MDState) : MDState :=
  (List.range steps_per_T).foldl (stageStep T) s

/-- The full temperature ramp, starting from the lattice positions and the
(random, hence here explicitly supplied) Maxwell-Boltzmann initial
velocities, with empty recording lists. -/
def mdRun (v0 : Velocities) : MDState :=
  temps.foldl (fun s T => mdStage T s) ⟨pos_initial, v0, [], [], []⟩

/-- temps.repeat(steps_per_T // record_interval): the per-frame stage-target
array saved as temps.npy. -/
def tempsSaved : List ℝ :=
  (temps.map (List.replicate (steps_per_T / record_interval))).flatten

end Melting

/-! ## Helper lemmas: discrete Fourier transform -/

namespace Spinodal

lemma wpos_eq_pow (n k x : ℕ) :
    wpos n k x = Complex.exp (2 * Real.pi * Complex.I * k / n) ^ x := by
  rw [← Complex.exp_nat_mul]
  unfold wpos
  ring_nf

lemma wexp_ne_one (n k : ℕ) (hk : 0 < k) (hkn : k < n) :
    Complex.exp (2 * Real.pi * Complex.I * k / n) ≠ 1 := by
  intro h
  rw [Complex.exp_eq_one_iff] at h
  obtain ⟨m, hm⟩ := h
  have hn : (n : ℂ) ≠ 0 := by
    simp only [ne_eq, Nat.cast_eq_zero]
    omega
  have htpi : (2 * Real.pi * Complex.I : ℂ) ≠ 0 := by
    simp [Real.pi_ne_zero, Complex.I_ne_zero]
  have hkm : (k : ℂ) = m * n := by
    field_simp at hm
    apply mul_right_cancel₀ htpi
    linear_combination hm
  have hint : (k : ℤ) = m * n := by exact_mod_cast hkm
  rcases le_or_lt m 0 with hm0 | hm0
  · nlinarith [hint, Int.ofNat_lt.mpr hk, Int.ofNat_lt.mpr hkn]
  · have : (n : ℤ) ≤ m * n := le_mul_of_one_le_left (by positivity) hm0
    omega

lemma sum_wpos (n : ℕ) (hn : 0 < n) (k : Fin n) :
    ∑ x : Fin n, wpos n k x = if (k : ℕ) = 0 then (n : ℂ) else 0 := by
  rcases eq_or_ne (k : ℕ) 0 with hk | hk
  · rw [if_pos hk]
    have h1 : ∀ x : Fin n, wpos n k x = 1 := by
      intro x
      simp [wpos, hk]
    rw [Finset.sum_congr rfl fun x _ => h1 x]
    simp
  · rw [if_neg hk]
    have hkpos : 0 < (k : ℕ) := Nat.pos_of_ne_zero hk
    set z := Complex.exp (2 * Real.pi * Complex.I * k / n) with hz
    have hz1 : z ≠ 1 := wexp_ne_one n k hkpos k.isLt
    have hzn : z ^ n = 1 := by
      rw [hz, ← Complex.exp_nat_mul]
      have harg : (n : ℂ) * (2 * Real.pi * Complex.I * k / n) =
          (k : ℤ) * (2 * Real.pi * Complex.I) := by
        push_cast
        have : (n : ℂ) ≠ 0 := by
          simp only [ne_eq, Nat.cast_eq_zero]; omega
        field_simp
        ring
      rw [harg, Complex.exp_int_mul_two_pi_mul_I]
    calc ∑ x : Fin n, wpos n k x = ∑ x : Fin n, z ^ (x : ℕ) := by
          refine Finset.sum_congr rfl fun x _ => ?_
          rw [wpos_eq_pow n k x]
      _ = ∑ x ∈ Finset.range n, z ^ x := Fin.sum_univ_eq_sum_range _ n
      _ = (z ^ n - 1) / (z - 1) := geom_sum_eq hz1 n
      _ = 0 := by rw [hzn]; simp

/-- The grid total of an inverse 2D DFT is its zero-frequency coefficient. -/
lemma sum_idft2 (F : CGrid) :
    ∑ x : Fin Nx, ∑ y : Fin Nx, idft2 F x y = F 0 0 := by
  have hval : ∀ m : Fin Nx, m ≠ 0 → ((m : ℕ) ≠ 0) := by
    intro m hm
    simpa [Fin.ext_iff] using hm
  have hswap : ∑ x : Fin Nx, ∑ y : Fin Nx,
      (∑ k : Fin Nx, ∑ l : Fin Nx, F k l * wpos Nx k x * wpos Nx l y) =
      ∑ k : Fin Nx, ∑ l : Fin Nx,
      F k l * (∑ x : Fin Nx, wpos Nx k x) * (∑ y : Fin Nx, wpos Nx l y) := by
    have s1 : ∑ x : Fin Nx, ∑ y : Fin Nx,
        (∑ k : Fin Nx, ∑ l : Fin Nx, F k l * wpos Nx k x * wpos Nx l y) =
        ∑ x : Fin Nx, ∑ k : Fin Nx, ∑ y : Fin Nx,
        (∑ l : Fin Nx, F k l * wpos Nx k x * wpos Nx l y) := by
      refine Finset.sum_congr rfl fun x _ => ?_
      exact Finset.sum_comm
    have s2 : ∑ x : Fin Nx, ∑ k : Fin Nx, ∑ y : Fin Nx,
        (∑ l : Fin Nx, F k l * wpos Nx k x * wpos Nx l y) =
        ∑ k : Fin Nx, ∑ x : Fin Nx, ∑ y : Fin Nx,
        (∑ l : Fin Nx, F k l * wpos Nx k x * wpos Nx l y) := Finset.sum_comm
    have s3 : ∀ k : Fin Nx, ∑ x : Fin Nx, ∑ y : Fin Nx,
        (∑ l : Fin Nx, F k l * wpos Nx k x * wpos Nx l y) =
        ∑ l : Fin Nx, ∑ x : Fin Nx, ∑ y : Fin Nx,
        F k l * wpos Nx k x * wpos Nx l y := by
      intro k
      have s3a : ∑ x : Fin Nx, ∑ y : Fin Nx,
          (∑ l : Fin Nx, F k l * wpos Nx k x * wpos Nx l y) =
          ∑ x : Fin Nx, ∑ l : Fin Nx, ∑ y : Fin Nx,
          F k l * wpos Nx k x * wpos Nx l y := by
        refine Finset.sum_congr rfl fun x _ => ?_
        exact Finset.sum_comm
      rw [s3a]
      exact Finset.sum_comm
    rw [s1, s2]
    refine Finset.sum_congr rfl fun k _ => ?_
    rw [s3 k]
    refine Finset.sum_congr rfl fun l _ => ?_
    calc ∑ x : Fin Nx, ∑ y : Fin Nx, F k l * wpos Nx k x * wpos Nx l y
        = ∑ x : Fin Nx, (F k l * wpos Nx k x) * ∑ y : Fin Nx, wpos Nx l y := by
          refine Finset.sum_congr rfl fun x _ => ?_
          rw [Finset.mul_sum]
      _ = (∑ x : Fin Nx, F k l * wpos Nx k x) * ∑ y : Fin Nx, wpos Nx l y := by
          rw [Finset.sum_mul]
      _ = F k l * (∑ x : Fin Nx, wpos Nx k x) * ∑ y : Fin Nx, wpos Nx l y := by
          rw [← Finset.mul_sum]
  have hcollapse : ∑ k : Fin Nx, ∑ l : Fin Nx,
      F k l * (∑ x : Fin Nx, wpos Nx k x) * (∑ y : Fin Nx, wpos Nx l y) =
      F 0 0 * (Nx : ℂ) * Nx := by
    rw [Finset.sum_eq_single 0]
    · rw [Finset.sum_eq_single 0]
      · rw [sum_wpos Nx (by norm_num) 0]
        have h00 : ((0 : Fin Nx) : ℕ) = 0 := rfl
        rw [h00, if_pos rfl]
      · intro l _ hl
        rw [sum_wpos Nx (by norm_num) l, if_neg (hval l hl)]
        ring
      · intro h
        exact absurd (Finset.mem_univ 0) h
    · intro k _ hk
      rw [Finset.sum_eq_single 0]
      · rw [sum_wpos Nx (by norm_num) k, if_neg (hval k hk)]
        ring
      · intro l _ hl
        rw [sum_wpos Nx (by norm_num) l, if_neg (hval l hl)]
        ring
      · intro h
        exact absurd (Finset.mem_univ 0) h
    · intro h
      exact absurd (Finset.mem_univ 0) h
  unfold idft2
  have hdiv : ∑ x : Fin Nx, ∑ y : Fin Nx,
      (∑ k : Fin Nx, ∑ l : Fin Nx, F k l * wpos Nx k x * wpos Nx l y) / ((Nx : ℂ) * Nx) =
      (∑ x : Fin Nx, ∑ y : Fin Nx,
        ∑ k : Fin Nx, ∑ l : Fin Nx, F k l * wpos Nx k x * wpos Nx l y) / ((Nx : ℂ) * Nx) := by
    rw [Finset.sum_div]
    refine Finset.sum_congr rfl fun x _ => ?_
    rw [Finset.sum_div]
  rw [hdiv, hswap, hcollapse]
  have hne : ((Nx : ℂ)) ≠ 0 := by norm_num
  field_simp
  ring

lemma k2_zero : k2 0 0 = 0 := by
  have h0 : fftfreq Nx 0 = 0 := by
    unfold fftfreq
    rw [if_pos (by norm_num)]
    norm_num
  unfold k2 kx
  simp only [Fin.val_zero]
  rw [h0]
  norm_num

/-- The zero-wavenumber Fourier coefficient is untouched by one solver step,
whatever the free-energy derivative and the damping factor. -/
lemma chStep_zero_mode (muFunc : RGrid → RGrid) (damping : ℝ) (cHat : CGrid) :
    chStep muFunc damping cHat 0 0 = cHat 0 0 := by
  unfold chStep
  by_cases h : damping > 0
  · rw [if_pos h]
    simp only [k2_zero]
    norm_num
  · rw [if_neg h]
    simp only [k2_zero]
    norm_num

/-- The grid mean of the real part of an inverse transform is the real part
of the zero mode over the number of grid points. -/
lemma gridMean_idft2 (F : CGrid) :
    gridMean (fun x y => (idft2 F x y).re) = (F 0 0).re / ((Nx : ℝ) * Nx) := by
  unfold gridMean
  have h1 : ∑ x : Fin Nx, ∑ y : Fin Nx, (idft2 F x y).re =
      (∑ x : Fin Nx, ∑ y : Fin Nx, idft2 F x y).re := by
    rw [Complex.re_sum]
    refine Finset.sum_congr rfl fun x _ => ?_
    rw [Complex.re_sum]
  rw [h1, sum_idft2]

lemma simStep_cHat (muFunc : RGrid → RGrid) (damping : ℝ) (savePoints : List ℕ)
    (s : SimState) (step : ℕ) :
    (simStep muFunc damping savePoints s step).cHat = chStep muFunc damping s.cHat := by
  unfold simStep
  split <;> rfl

lemma simStep_saveIdx (muFunc : RGrid → RGrid) (damping : ℝ) (savePoints : List ℕ)
    (s : SimState) (step : ℕ) :
    (simStep muFunc damping savePoints s step).saveIdx =
      if s.saveIdx < savePoints.length ∧ step = savePoints.getD s.saveIdx 0 then
        s.saveIdx + 1
      else s.saveIdx := by
  unfold simStep
  split <;> rfl

/-- Along the whole loop, the number of stored frames stays one above the
save cursor (the extra frame being the initial condition). -/
lemma frames_track_saveIdx (muFunc : RGrid → RGrid) (damping : ℝ)
    (savePoints : List ℕ) :
    ∀ (l : List ℕ) (s : SimState), s.frames.length = s.saveIdx + 1 →
      (l.foldl (simStep muFunc damping savePoints) s).frames.length =
        (l.foldl (simStep muFunc damping savePoints) s).saveIdx + 1 := by
  intro l
  induction l with
  | nil => intro s h; exact h
  | cons a t ih =>
      intro s h
      simp only [List.foldl_cons]
      apply ih
      unfold simStep
      split
      · simp [h]
      · exact h

/-- For a strictly increasing schedule lying inside the processed step
range, the save cursor reaches the end of the schedule. -/
lemma saveIdx_reaches_end (muFunc : RGrid → RGrid) (damping : ℝ)
    (savePoints : List ℕ) :
    ∀ (n a : ℕ) (s : SimState), s.saveIdx ≤ savePoints.length →
      List.Sorted (· < ·) (savePoints.drop s.saveIdx) →
      (∀ q ∈ savePoints.drop s.saveIdx, a ≤ q ∧ q < a + n) →
      ((List.range' a n).foldl (simStep muFunc damping savePoints) s).saveIdx =
        savePoints.length := by
  intro n
  induction n with
  | zero =>
      intro a s hle _hs hq
      simp only [List.range', List.foldl_nil]
      have hdrop : savePoints.drop s.saveIdx = [] := by
        cases hdrop : savePoints.drop s.saveIdx with
        | nil => rfl
        | cons q t =>
            have := hq q (by rw [hdrop]; exact List.mem_cons_self q t)
            omega
      have hlen : savePoints.length ≤ s.saveIdx := by
        rwa [List.drop_eq_nil_iff] at hdrop
      omega
  | succ n ih =>
      intro a s hle hs hq
      rw [List.range'_succ]
      simp only [List.foldl_cons]
      cases hdrop : savePoints.drop s.saveIdx with
      | nil =>
          have hlen : savePoints.length ≤ s.saveIdx := by
            rwa [List.drop_eq_nil_iff] at hdrop
          have hguard : ¬(s.saveIdx < savePoints.length ∧
              a = savePoints.getD s.saveIdx 0) := by
            rintro ⟨h1, _⟩
            omega
          have hidx : (simStep muFunc damping savePoints s a).saveIdx = s.saveIdx := by
            rw [simStep_saveIdx, if_neg hguard]
          apply ih (a + 1)
          · rw [hidx]; exact hle
          · rw [hidx, hdrop]; exact List.sorted_nil
          · rw [hidx, hdrop]; intro q hq'; cases hq'
      | cons p t =>
          have hidxlt : s.saveIdx < savePoints.length := by
            by_contra hcon
            rw [List.drop_eq_nil_iff.mpr (by omega)] at hdrop
            cases hdrop
          have hgetp : savePoints.getD s.saveIdx 0 = p := by
            have h0 : (savePoints.drop s.saveIdx).getD 0 0 = p := by
              rw [hdrop]; rfl
            rw [List.getD_eq_getElem?_getD] at h0 ⊢
            rw [List.getElem?_drop, Nat.add_zero] at h0
            exact h0
          have hdropsucc : savePoints.drop (s.saveIdx + 1) = t := by
            have : savePoints.drop (s.saveIdx + 1) =
                (savePoints.drop s.saveIdx).drop 1 := by
              rw [List.drop_drop, Nat.add_comm]
            rw [this, hdrop]
            rfl
          have hsorted' := hs
          rw [hdrop, List.sorted_cons] at hsorted'
          obtain ⟨hplt, htsorted⟩ := hsorted'
          have hpbound := hq p (by rw [hdrop]; exact List.mem_cons_self p t)
          by_cases hpa : a = p
          · have hguard : s.saveIdx < savePoints.length ∧
                a = savePoints.getD s.saveIdx 0 := ⟨hidxlt, by rw [hgetp, hpa]⟩
            have hidx : (simStep muFunc damping savePoints s a).saveIdx =
                s.saveIdx + 1 := by
              rw [simStep_saveIdx, if_pos hguard]
            apply ih (a + 1)
            · rw [hidx]; omega
            · rw [hidx, hdropsucc]; exact htsorted
            · rw [hidx, hdropsucc]
              intro q hq'
              have h1 : p < q := hplt q hq'
              have h2 := hq q (by rw [hdrop]; exact List.mem_cons_of_mem p hq')
              omega
          · have hguard : ¬(s.saveIdx < savePoints.length ∧
                a = savePoints.getD s.saveIdx 0) := by
              rintro ⟨_, h2⟩
              rw [hgetp] at h2
              exact hpa h2
            have hidx : (simStep muFunc damping savePoints s a).saveIdx = s.saveIdx := by
              rw [simStep_saveIdx, if_neg hguard]
            apply ih (a + 1)
            · rw [hidx]; exact hle
            · rw [hidx, hdrop, List.sorted_cons]; exact ⟨hplt, htsorted⟩
            · rw [hidx, hdrop]
              intro q hq'
              rcases List.mem_cons.mp hq' with h | h
              · subst h
                omega
              · have h1 : p < q := hplt q h
                have h2 := hq q (by rw [hdrop]; exact List.mem_cons_of_mem p h)
                omega

/-- For a strictly increasing schedule with all points in [1, n_steps], the
run stores one frame per scheduled step plus the initial frame. -/
lemma run_frames_length (cInitial : RGrid) (muFunc : RGrid → RGrid) (nSteps : ℕ)
    (savePoints : List ℕ) (damping : ℝ)
    (hsort : List.Sorted (· < ·) savePoints)
    (hmem : ∀ q ∈ savePoints, 1 ≤ q ∧ q ≤ nSteps) :
    (run_simulation cInitial muFunc nSteps savePoints damping).frames.length =
      savePoints.length + 1 := by
  unfold run_simulation
  rw [frames_track_saveIdx muFunc damping savePoints _ _ (by simp)]
  rw [saveIdx_reaches_end muFunc damping savePoints nSteps 1 _ (by simp)
    (by simpa using hsort)]
  intro q hq
  have := hmem q (by simpa using hq)
  omega

end Spinodal

/-- C1: every step of the Cahn-Hilliard solver conserves the spatial mean of
the concentration field, for every free-energy derivative muFunc and every
damping factor: the k = 0 denominator is exactly 1, the explicit update
term dt * M * k2 * muHat vanishes at k = 0, and the damping filter
exp(-damping * k2 * dt) is 1 at k = 0. -/
theorem C1_mean_conserved (muFunc : Spinodal.RGrid → Spinodal.RGrid) (damping : ℝ)
    (savePoints : List ℕ) (s : Spinodal.SimState) (step : ℕ) :
    Spinodal.gridMean (fun x y =>
        (Spinodal.idft2 (Spinodal.simStep muFunc damping savePoints s step).cHat x y).re) =
      Spinodal.gridMean (fun x y => (Spinodal.idft2 s.cHat x y).re) ∧
    1 + Spinodal.dt * Spinodal.M * Spinodal.kappa * Spinodal.k2 0 0 ^ 2 = 1 ∧
    (∀ muHat00 : ℂ, ((Spinodal.dt * Spinodal.M * Spinodal.k2 0 0 : ℝ) : ℂ) * muHat00 = 0) ∧
    Real.exp (-damping * Spinodal.k2 0 0 * Spinodal.dt) = 1 := by
  refine ⟨?_, ?_, ?_, ?_⟩
  · rw [Spinodal.gridMean_idft2, Spinodal.gridMean_idft2, Spinodal.simStep_cHat,
      Spinodal.chStep_zero_mode]
  · rw [Spinodal.k2_zero]
    norm_num
  · intro muHat00
    rw [Spinodal.k2_zero]
    norm_num
  · rw [Spinodal.k2_zero]
    norm_num

/-- C6 counterexample: a run over 2 steps with the strictly increasing
schedule [1, 2] (both indices within [1, n_steps]) stores 3 frames, not 2:
the written array holds one snapshot per scheduled step PLUS the initial
field, so its length exceeds the schedule length by one. -/
theorem C6_counterexample :
    (Spinodal.run_simulation (fun _ _ => 0) (fun g => g) 2 [1, 2] 0).frames.length ≠
      ([1, 2] : List ℕ).length := by
  rw [Spinodal.run_frames_length (fun _ _ => 0) (fun g => g) 2 [1, 2] 0
    (by simp [List.sorted_cons]) (by decide)]
  decide

/-- C6 amended: for a strictly increasing checkpoint schedule whose indices
all lie in [1, n_steps], the number of stored concentration snapshots is
the schedule length plus one — frame 0 is the initial condition, then one
frame per scheduled step index. -/
theorem C6_snapshot_count (cInitial : Spinodal.RGrid)
    (muFunc : Spinodal.RGrid → Spinodal.RGrid) (nSteps : ℕ) (savePoints : List ℕ)
    (damping : ℝ) (hsort : List.Sorted (· < ·) savePoints)
    (hmem : ∀ q ∈ savePoints, 1 ≤ q ∧ q ≤ nSteps) :
    (Spinodal.run_simulation cInitial muFunc nSteps savePoints damping).frames.length =
      savePoints.length + 1 :=
  Spinodal.run_frames_length cInitial muFunc nSteps savePoints damping hsort hmem

/-- C6 witness: the amended count theorem applied to the concrete schedule
[1, 2] over 2 steps. -/
theorem C6_snapshot_count_witness :
    List.Sorted (· < ·) [1, 2] ∧ (∀ q ∈ ([1, 2] : List ℕ), 1 ≤ q ∧ q ≤ 2) ∧
      (Spinodal.run_simulation (fun _ _ => 1) (fun g => g) 2 [1, 2] 0).frames.length =
        ([1, 2] : List ℕ).length + 1 :=
  ⟨by simp [List.sorted_cons], by decide,
    C6_snapshot_count (fun _ _ => 1) (fun g => g) 2 [1, 2] 0
      (by simp [List.sorted_cons]) (by decide)⟩

/-- C4: with damping_factor = 0, each loop iteration of run_simulation
transforms the Fourier field exactly by the semi-implicit update of the
specification: mu = muFunc(c) - kappa * ifftn(k2 * c_hat) in real space,
then c_hat ← (c_hat - dt M k2 mu_hat) / (1 + dt M kappa k2 ^ 2). -/
theorem C4_semi_implicit_update (muFunc : Spinodal.RGrid → Spinodal.RGrid)
    (savePoints : List ℕ) (s : Spinodal.SimState) (step : ℕ) :
    (Spinodal.simStep muFunc 0 savePoints s step).cHat =
      Spinodal.chStepSpec muFunc s.cHat := by
  rw [Spinodal.simStep_cHat]
  unfold Spinodal.chStep Spinodal.chStepSpec
  rw [if_neg (by norm_num)]

/-! ## Helper lemmas: Ising sampler -/

namespace Ising

lemma betaOf_pos (J T : ℝ) (h : 0 < T) : betaOf J T = J / (kB * T) := by
  unfold betaOf
  rw [if_pos h]
  exact one_div_div (kB * T) J

lemma exp_three_gt_ten : (10 : ℝ) < Real.exp 3 := by
  have h1 : Real.exp 3 = Real.exp 1 ^ (3 : ℕ) := by
    rw [← Real.exp_nat_mul]
    norm_num
  have h2 : (2.7182818283 : ℝ) ^ (3 : ℕ) < Real.exp 1 ^ (3 : ℕ) :=
    pow_lt_pow_left₀ Real.exp_one_gt_d9 (by norm_num) (by norm_num)
  have h3 : (10 : ℝ) < (2.7182818283 : ℝ) ^ (3 : ℕ) := by norm_num
  rw [h1]
  linarith

lemma exp_two_lt_ten : Real.exp 2 < 10 := by
  have h1 : Real.exp 2 = Real.exp 1 ^ (2 : ℕ) := by
    rw [← Real.exp_nat_mul]
    norm_num
  have h2 : Real.exp 1 ^ (2 : ℕ) < (2.7182818286 : ℝ) ^ (2 : ℕ) :=
    pow_lt_pow_left₀ Real.exp_one_lt_d9 (Real.exp_pos 1).le (by norm_num)
  have h3 : (2.7182818286 : ℝ) ^ (2 : ℕ) < 10 := by norm_num
  rw [h1]
  linarith

lemma deltaE_allOnes (i j : Fin L) : deltaE allOnes i j = 8 := by
  unfold deltaE nnSum allOnes
  norm_num

end Ising

/-- C2 counterexample: with the Fe coupling J = 1043/2.269 and T = 5 K, on
the aligned lattice with dE = 8 and uniform draw u = 1/10, the source
proposal (which uses exp(-beta dE) with beta = 1/(kB T / J)) rejects the
flip, while the rule worded in the claim (acceptance probability
exp(-dE/(kB T)), no J) accepts it: the two disagree on the resulting spin. -/
theorem C2_counterexample :
    Ising.proposal (Ising.betaOf (1043 / 2.269) 5) Ising.allOnes 0 0 (1 / 10) 0 0 = 1 ∧
      Ising.proposalClaim 5 Ising.allOnes 0 0 (1 / 10) 0 0 = -1 := by
  constructor
  · unfold Ising.proposal
    rw [if_neg]
    · rfl
    rw [Ising.deltaE_allOnes, Ising.betaOf_pos _ _ (by norm_num)]
    push_neg
    refine ⟨by norm_num, ?_⟩
    have harg : (-(1043 / 2.269 / (Ising.kB * 5)) * ((8 : ℤ) : ℝ)) ≤ -3 := by
      unfold Ising.kB
      norm_num
    calc Real.exp (-(1043 / 2.269 / (Ising.kB * 5)) * ((8 : ℤ) : ℝ))
        ≤ Real.exp (-3) := Real.exp_le_exp.mpr harg
      _ = (Real.exp 3)⁻¹ := Real.exp_neg 3
      _ ≤ 10⁻¹ := by
          have h10 : (0 : ℝ) < 10 := by norm_num
          have := Ising.exp_three_gt_ten
          exact (inv_le_inv₀ (by linarith) h10).mpr this.le
      _ = 1 / 10 := by norm_num
  · unfold Ising.proposalClaim
    rw [if_pos]
    · rfl
    right
    rw [Ising.deltaE_allOnes]
    have harg : (-((8 : ℤ) : ℝ) / (Ising.kB * 5)) = -(8 / 5) := by
      unfold Ising.kB
      norm_num
    rw [harg, Real.exp_neg]
    have hlt : Real.exp (8 / 5) < 10 := by
      calc Real.exp (8 / 5) ≤ Real.exp 2 := Real.exp_le_exp.mpr (by norm_num)
        _ < 10 := Ising.exp_two_lt_ten
    have hpos : (0 : ℝ) < Real.exp (8 / 5) := Real.exp_pos _
    rw [lt_inv_comm₀ (by norm_num) hpos]
    have h10 : ((1 : ℝ) / 10)⁻¹ = 10 := by norm_num
    rw [h10]
    exact hlt

/-- C2 amended: for T > 0 the elementary Metropolis proposal of the source
selects the supplied site, computes dE = 2 s (sum of the 4 periodic
neighbours), flips unconditionally when dE <= 0, flips when the uniform
draw u satisfies u < exp(-J dE / (kB T)) (note the coupling J in the
exponent, via beta = 1/(kB T / J)), and otherwise leaves the lattice
unchanged. -/
theorem C2_metropolis_rule (J T : ℝ) (sp : Ising.Spins) (i j : Fin Ising.L)
    (u : ℝ) (hT : 0 < T) :
    Ising.proposal (Ising.betaOf J T) sp i j u =
      if Ising.deltaE sp i j ≤ 0 ∨
          u < Real.exp (-(J * Ising.deltaE sp i j) / (Ising.kB * T)) then
        Ising.flipAt sp i j
      else sp := by
  unfold Ising.proposal
  rw [Ising.betaOf_pos J T hT]
  have harg : -(J / (Ising.kB * T)) * (Ising.deltaE sp i j : ℝ) =
      -(J * Ising.deltaE sp i j) / (Ising.kB * T) := by
    ring
  rw [harg]

/-- C2 witness: the amended rule at J = 1, T = 2, the aligned lattice,
site (0, 0) and u = 1/2. -/
theorem C2_metropolis_rule_witness :
    (0 : ℝ) < 2 ∧
      Ising.proposal (Ising.betaOf 1 2) Ising.allOnes 0 0 (1 / 2) =
        if Ising.deltaE Ising.allOnes 0 0 ≤ 0 ∨
            (1 / 2 : ℝ) < Real.exp (-(1 * Ising.deltaE Ising.allOnes 0 0) / (Ising.kB * 2)) then
          Ising.flipAt Ising.allOnes 0 0
        else Ising.allOnes :=
  ⟨by norm_num, C2_metropolis_rule 1 2 Ising.allOnes 0 0 (1 / 2) (by norm_num)⟩

/-! ## Helper lemmas: MD force loop -/

namespace Melting

lemma floor_neg_of_fract_ne (x : ℝ) (h : Int.fract x ≠ 0) : ⌊-x⌋ = -⌊x⌋ - 1 := by
  have h1 : Int.fract (-x) = 1 - Int.fract x := Int.fract_neg h
  have h3 : Int.fract x = x - ⌊x⌋ := rfl
  have h4 : Int.fract (-x) = -x - (⌊-x⌋ : ℝ) := rfl
  have h5 : (-x : ℝ) - ⌊-x⌋ = 1 - (x - ⌊x⌋) := by rw [← h4, ← h3, h1]
  have h6 : ((⌊-x⌋ : ℤ) : ℝ) = ((-⌊x⌋ - 1 : ℤ) : ℝ) := by push_cast; linarith
  exact_mod_cast h6

/-- np.rint is an odd function (round-half-even is symmetric about 0). -/
lemma rint_neg (x : ℝ) : rint (-x) = -rint x := by
  by_cases h0 : Int.fract x = 0
  · have hx : x = (⌊x⌋ : ℝ) := by
      have h3 : Int.fract x = x - ⌊x⌋ := rfl
      rw [h0] at h3
      linarith [h3.symm]
    have hf : Int.fract (-x) = 0 := Int.fract_neg_eq_zero.mpr h0
    have hfl : ⌊-x⌋ = -⌊x⌋ := by
      have hc : (-(⌊x⌋ : ℝ)) = ((-⌊x⌋ : ℤ) : ℝ) := by push_cast; ring
      rw [hx, hc, Int.floor_intCast, Int.floor_intCast]
    unfold rint
    rw [h0, hf, hfl]
    norm_num
  · have hfl : ⌊-x⌋ = -⌊x⌋ - 1 := floor_neg_of_fract_ne x h0
    have hf : Int.fract (-x) = 1 - Int.fract x := Int.fract_neg h0
    have hpos : 0 < Int.fract x := lt_of_le_of_ne (Int.fract_nonneg x) (Ne.symm h0)
    rcases lt_trichotomy (Int.fract x) (1 / 2) with hlt | heq | hgt
    · have hL : rint (-x) = ⌊-x⌋ + 1 := by
        unfold rint
        rw [hf, if_neg (by linarith), if_pos (by linarith)]
      have hR : rint x = ⌊x⌋ := by
        unfold rint
        rw [if_pos hlt]
      rw [hL, hR, hfl]
      ring
    · have hL : rint (-x) = if Even ⌊-x⌋ then ⌊-x⌋ else ⌊-x⌋ + 1 := by
        unfold rint
        rw [hf, heq, if_neg (by norm_num), if_neg (by norm_num)]
      have hR : rint x = if Even ⌊x⌋ then ⌊x⌋ else ⌊x⌋ + 1 := by
        unfold rint
        rw [heq, if_neg (by norm_num), if_neg (by norm_num)]
      rw [hL, hR, hfl]
      by_cases he : Even ⌊x⌋
      · have hpar : ¬Even (-⌊x⌋ - 1) := by
          rw [Int.even_iff] at he ⊢
          omega
        rw [if_pos he, if_neg hpar]
        ring
      · have hpar : Even (-⌊x⌋ - 1) := by
          rw [Int.even_iff] at he ⊢
          omega
        rw [if_neg he, if_pos hpar]
        ring
    · have hL : rint (-x) = ⌊-x⌋ := by
        unfold rint
        rw [hf, if_pos (by linarith)]
      have hR : rint x = ⌊x⌋ + 1 := by
        unfold rint
        rw [if_neg (by linarith), if_pos hgt]
      rw [hL, hR, hfl]
      ring

/-- The minimum-image reduction is odd. -/
lemma minImage_neg (x : ℝ) : minImage (-x) = -minImage x := by
  unfold minImage
  have h1 : (-x) / boxL = -(x / boxL) := by ring
  rw [h1, rint_neg]
  push_cast
  ring

lemma pairDisp_antisymm (p : Positions) (i j : Fin Natoms) (d : Fin 3) :
    pairDisp p j i d = -pairDisp p i j d := by
  unfold pairDisp
  have h1 : p i d - p j d = -(p j d - p i d) := by ring
  rw [h1, minImage_neg]

lemma dist2_symm (p : Positions) (i j : Fin Natoms) : dist2 p j i = dist2 p i j := by
  unfold dist2
  refine Finset.sum_congr rfl fun d _ => ?_
  rw [pairDisp_antisymm]
  ring

lemma maskedFij_antisymm (p : Positions) (i j : Fin Natoms) (d : Fin 3) :
    maskedFij p j i d = -maskedFij p i j d := by
  unfold maskedFij
  rw [dist2_symm]
  by_cases h : dist2 p i j < rc2 ∧ 0 < dist2 p i j
  · rw [if_pos h, if_pos h, pairDisp_antisymm]
    ring
  · rw [if_neg h, if_neg h]
    ring

lemma rint_zero : rint 0 = 0 := by
  unfold rint
  rw [Int.fract_zero]
  norm_num

lemma minImage_zero : minImage 0 = 0 := by
  unfold minImage
  rw [zero_div, rint_zero]
  norm_num

lemma dist2_self (p : Positions) (i : Fin Natoms) : dist2 p i i = 0 := by
  unfold dist2
  refine Finset.sum_eq_zero fun d _ => ?_
  unfold pairDisp
  rw [sub_self, minImage_zero]
  norm_num

lemma maskedFij_self (p : Positions) (i : Fin Natoms) (d : Fin 3) :
    maskedFij p i i d = 0 := by
  unfold maskedFij
  rw [if_neg]
  rintro ⟨-, h2⟩
  rw [dist2_self] at h2
  exact lt_irrefl 0 h2

lemma foldl_pot_fst (p : Positions) :
    ∀ (l : List (Fin Natoms)) (s : Forces × ℝ),
      (l.foldl (forcesPotBody p) s).1 = l.foldl (forcesBody p) s.1 := by
  intro l
  induction l with
  | nil => intro s; rfl
  | cons a t ih =>
      intro s
      simp only [List.foldl_cons]
      exact ih (forcesPotBody p s a)

/-- Closed form of the force-accumulation fold over a duplicate-free index
list. -/
lemma forces_foldl_closed (p : Positions) :
    ∀ (l : List (Fin Natoms)), l.Nodup → ∀ (F0 : Forces) (k : Fin Natoms) (d : Fin 3),
      (l.foldl (forcesBody p) F0) k d =
        F0 k d + (if k ∈ l then ∑ j ∈ Finset.Ioi k, maskedFij p k j d else 0)
          - ∑ i : Fin Natoms, (if i ∈ l ∧ i < k then maskedFij p i k d else 0) := by
  intro l
  induction l with
  | nil =>
      intro _ F0 k d
      simp
  | cons a t ih =>
      intro hnd F0 k d
      obtain ⟨hat, htnd⟩ := List.nodup_cons.mp hnd
      simp only [List.foldl_cons]
      rw [ih htnd (forcesBody p F0 a) k d]
      rcases lt_trichotomy k a with hka | hka | hka
      · have hbody : forcesBody p F0 a k d = F0 k d := by
          unfold forcesBody
          rw [if_neg (by omega), if_neg (by omega)]
        have hmem : (k ∈ a :: t) ↔ (k ∈ t) := by
          simp only [List.mem_cons]
          constructor
          · rintro (h | h)
            · omega
            · exact h
          · exact fun h => Or.inr h
        have hif : (if k ∈ a :: t then ∑ j ∈ Finset.Ioi k, maskedFij p k j d else 0) =
            (if k ∈ t then ∑ j ∈ Finset.Ioi k, maskedFij p k j d else 0) :=
          if_congr hmem rfl rfl
        have hsum : ∀ i : Fin Natoms,
            (if i ∈ a :: t ∧ i < k then maskedFij p i k d else 0) =
              (if i ∈ t ∧ i < k then maskedFij p i k d else 0) := by
          intro i
          by_cases hi : i = a
          · subst hi
            rw [if_neg (by rintro ⟨-, h2⟩; omega),
              if_neg (by rintro ⟨h1, -⟩; exact hat h1)]
          · simp only [List.mem_cons]
            by_cases h2 : i ∈ t ∧ i < k
            · rw [if_pos ⟨Or.inr h2.1, h2.2⟩, if_pos h2]
            · rw [if_neg ?_, if_neg h2]
              rintro ⟨h3 | h3, h4⟩
              · exact hi h3
              · exact h2 ⟨h3, h4⟩
        rw [hbody, hif]
        simp only [hsum]
      · subst hka
        have hbody : forcesBody p F0 k k d =
            F0 k d + ∑ j ∈ Finset.Ioi k, maskedFij p k j d := by
          unfold forcesBody
          rw [if_pos rfl]
        have hsum : ∀ i : Fin Natoms,
            (if i ∈ k :: t ∧ i < k then maskedFij p i k d else 0) =
              (if i ∈ t ∧ i < k then maskedFij p i k d else 0) := by
          intro i
          simp only [List.mem_cons]
          by_cases h2 : i ∈ t ∧ i < k
          · rw [if_pos ⟨Or.inr h2.1, h2.2⟩, if_pos h2]
          · rw [if_neg ?_, if_neg h2]
            rintro ⟨h3 | h3, h4⟩
            · subst h3; omega
            · exact h2 ⟨h3, h4⟩
        rw [hbody, if_neg hat, if_pos (List.mem_cons_self k t)]
        simp only [hsum]
        ring
      · have hbody : forcesBody p F0 a k d = F0 k d - maskedFij p a k d := by
          unfold forcesBody
          rw [if_neg (by omega), if_pos hka]
        have hmem : (k ∈ a :: t) ↔ (k ∈ t) := by
          simp only [List.mem_cons]
          constructor
          · rintro (h | h)
            · omega
            · exact h
          · exact fun h => Or.inr h
        have hif : (if k ∈ a :: t then ∑ j ∈ Finset.Ioi k, maskedFij p k j d else 0) =
            (if k ∈ t then ∑ j ∈ Finset.Ioi k, maskedFij p k j d else 0) :=
          if_congr hmem rfl rfl
        have hsum : ∀ i : Fin Natoms,
            (if i ∈ a :: t ∧ i < k then maskedFij p i k d else 0) =
              (if i = a then maskedFij p i k d else 0) +
                (if i ∈ t ∧ i < k then maskedFij p i k d else 0) := by
          intro i
          by_cases hi : i = a
          · subst hi
            rw [if_pos ⟨List.mem_cons_self i t, hka⟩, if_pos rfl,
              if_neg (by rintro ⟨h1, -⟩; exact hat h1)]
            ring
          · rw [if_neg hi]
            simp only [List.mem_cons]
            by_cases h2 : i ∈ t ∧ i < k
            · rw [if_pos ⟨Or.inr h2.1, h2.2⟩, if_pos h2]
              ring
            · rw [if_neg ?_, if_neg h2]
              · ring
              rintro ⟨h3 | h3, h4⟩
              · exact hi h3
              · exact h2 ⟨h3, h4⟩
        rw [hbody, hif]
        simp only [hsum]
        rw [Finset.sum_add_distrib,
          Finset.sum_ite_eq' Finset.univ a (fun i => maskedFij p i k d),
          if_pos (Finset.mem_univ a)]
        ring


lemma Iio_eq_filter (k : Fin Natoms) :
    Finset.Iio k = Finset.univ.filter (· < k) := by
  ext i
  simp [Finset.mem_Iio]

lemma Ioi_eq_filter (k : Fin Natoms) :
    Finset.Ioi k = Finset.univ.filter (k < ·) := by
  ext i
  simp [Finset.mem_Ioi]

/-- Closed form of compute_forces: particle k accumulates the masked pair
term from every j above it and sheds it toward every i below it. -/
lemma computeForces_closed (p : Positions) (k : Fin Natoms) (d : Fin 3) :
    (computeForces p).1 k d =
      (∑ j ∈ Finset.Ioi k, maskedFij p k j d) -
        ∑ i ∈ Finset.Iio k, maskedFij p i k d := by
  unfold computeForces
  rw [foldl_pot_fst]
  rw [forces_foldl_closed p (List.finRange Natoms) (List.nodup_finRange _) _ k d]
  rw [if_pos (List.mem_finRange k)]
  have hsum : ∀ i : Fin Natoms,
      (if i ∈ List.finRange Natoms ∧ i < k then maskedFij p i k d else 0) =
        (if i < k then maskedFij p i k d else 0) := by
    intro i
    by_cases h : i < k
    · rw [if_pos ⟨List.mem_finRange i, h⟩, if_pos h]
    · rw [if_neg (by rintro ⟨-, h2⟩; exact h h2), if_neg h]
  rw [Finset.sum_congr rfl fun i _ => hsum i]
  rw [Iio_eq_filter, Finset.sum_filter]
  ring

/-- A particle's net contribution from a distinct partner equals the masked
pair term oriented from that particle. -/
lemma contribTo_eq_masked (p : Positions) (i j : Fin Natoms) (hij : i ≠ j)
    (d : Fin 3) : contribTo p i j d = maskedFij p i j d := by
  unfold contribTo
  rcases lt_or_gt_of_ne hij with h | h
  · rw [if_pos h]
  · rw [if_neg (by omega), maskedFij_antisymm, neg_neg]

end Melting

/-- C10: Newton's third law at the array level: for every configuration,
the per-particle forces returned by compute_forces sum to the zero vector,
each pair term being added to one particle and subtracted from the other. -/
theorem C10_total_force_zero (p : Melting.Positions) (d : Fin 3) :
    ∑ k : Fin Melting.Natoms, (Melting.computeForces p).1 k d = 0 := by
  simp only [Melting.computeForces_closed]
  rw [Finset.sum_sub_distrib]
  have key : ∑ k : Fin Melting.Natoms, ∑ j ∈ Finset.Ioi k, Melting.maskedFij p k j d =
      ∑ k : Fin Melting.Natoms, ∑ i ∈ Finset.Iio k, Melting.maskedFij p i k d := by
    calc ∑ k : Fin Melting.Natoms, ∑ j ∈ Finset.Ioi k, Melting.maskedFij p k j d
        = ∑ k : Fin Melting.Natoms, ∑ j : Fin Melting.Natoms,
            (if k < j then Melting.maskedFij p k j d else 0) := by
          simp only [Melting.Ioi_eq_filter, Finset.sum_filter]
      _ = ∑ j : Fin Melting.Natoms, ∑ k : Fin Melting.Natoms,
            (if k < j then Melting.maskedFij p k j d else 0) := Finset.sum_comm
      _ = ∑ j : Fin Melting.Natoms, ∑ k ∈ Finset.Iio j, Melting.maskedFij p k j d := by
          simp only [Melting.Iio_eq_filter, Finset.sum_filter]
  rw [key, sub_self]

/-- C3: the Lennard-Jones force law of compute_forces.  For every distinct
pair at minimum-image distance r with 0 < r < rc, the contribution is
24 eps (2 (sigma/r)^12 - (sigma/r)^6) / r^2 times the minimum-image
displacement vector; every pair at distance at least rc contributes exactly
zero (hard cutoff); and the force on a particle is exactly the sum of
these pair contributions. -/
theorem C3_force_law (p : Melting.Positions) (i j : Fin Melting.Natoms)
    (hij : i ≠ j) :
    (0 < Melting.dist2 p i j ∧ Melting.dist2 p i j < Melting.rc2 → ∀ d : Fin 3,
      Melting.contribTo p i j d =
        24 * Melting.epsilon *
          (2 * (Melting.sigma / Real.sqrt (Melting.dist2 p i j)) ^ 12 -
            (Melting.sigma / Real.sqrt (Melting.dist2 p i j)) ^ 6) /
          Real.sqrt (Melting.dist2 p i j) ^ 2 * Melting.pairDisp p i j d) ∧
    (Melting.rc2 ≤ Melting.dist2 p i j → ∀ d : Fin 3,
      Melting.contribTo p i j d = 0) ∧
    (∀ d : Fin 3, (Melting.computeForces p).1 i d =
      ∑ q ∈ Finset.univ.erase i, Melting.contribTo p i q d) := by
  refine ⟨?_, ?_, ?_⟩
  · rintro ⟨h0, hrc⟩ d
    rw [Melting.contribTo_eq_masked p i j hij d]
    unfold Melting.maskedFij
    rw [if_pos ⟨hrc, h0⟩]
    have hd2 : Melting.dist2 p i j ≠ 0 := ne_of_gt h0
    have hs2 : Real.sqrt (Melting.dist2 p i j) ^ 2 = Melting.dist2 p i j :=
      Real.sq_sqrt h0.le
    have hs6 : Real.sqrt (Melting.dist2 p i j) ^ 6 = Melting.dist2 p i j ^ 3 := by
      rw [show (6 : ℕ) = 2 * 3 from rfl, pow_mul, hs2]
    have hs12 : Real.sqrt (Melting.dist2 p i j) ^ 12 = Melting.dist2 p i j ^ 6 := by
      rw [show (12 : ℕ) = 2 * 6 from rfl, pow_mul, hs2]
    rw [div_pow, div_pow, hs2, hs6, hs12]
    field_simp
    ring
  · intro hge d
    rw [Melting.contribTo_eq_masked p i j hij d]
    unfold Melting.maskedFij
    rw [if_neg]
    rintro ⟨h1, -⟩
    linarith
  · intro d
    rw [Melting.computeForces_closed]
    have hsplit : (Finset.univ.erase i : Finset (Fin Melting.Natoms)) =
        Finset.Iio i ∪ Finset.Ioi i := by
      ext q
      simp only [Finset.mem_erase, Finset.mem_univ, and_true, Finset.mem_union,
        Finset.mem_Iio, Finset.mem_Ioi]
      constructor
      · intro h
        exact lt_or_gt_of_ne h
      · rintro (h | h) <;> omega
    have hdisj : Disjoint (Finset.Iio i) (Finset.Ioi i) := by
      rw [Finset.disjoint_left]
      intro q hq1 hq2
      rw [Finset.mem_Iio] at hq1
      rw [Finset.mem_Ioi] at hq2
      omega
    rw [hsplit, Finset.sum_union hdisj]
    have hIio : ∑ q ∈ Finset.Iio i, Melting.contribTo p i q d =
        -∑ q ∈ Finset.Iio i, Melting.maskedFij p q i d := by
      rw [← Finset.sum_neg_distrib]
      refine Finset.sum_congr rfl fun q hq => ?_
      rw [Finset.mem_Iio] at hq
      unfold Melting.contribTo
      rw [if_neg (by omega)]
    have hIoi : ∑ q ∈ Finset.Ioi i, Melting.contribTo p i q d =
        ∑ q ∈ Finset.Ioi i, Melting.maskedFij p i q d := by
      refine Finset.sum_congr rfl fun q hq => ?_
      rw [Finset.mem_Ioi] at hq
      unfold Melting.contribTo
      rw [if_pos hq]
    rw [hIio, hIoi]
    ring

/-- C3 witness: the force-law theorem applied to the initial lattice and
the distinct pair (0, 1). -/
theorem C3_force_law_witness :
    (0 : Fin Melting.Natoms) ≠ 1 ∧
      ((0 < Melting.dist2 Melting.pos_initial 0 1 ∧
          Melting.dist2 Melting.pos_initial 0 1 < Melting.rc2 → ∀ d : Fin 3,
        Melting.contribTo Melting.pos_initial 0 1 d =
          24 * Melting.epsilon *
            (2 * (Melting.sigma / Real.sqrt (Melting.dist2 Melting.pos_initial 0 1)) ^ 12 -
              (Melting.sigma / Real.sqrt (Melting.dist2 Melting.pos_initial 0 1)) ^ 6) /
            Real.sqrt (Melting.dist2 Melting.pos_initial 0 1) ^ 2 *
            Melting.pairDisp Melting.pos_initial 0 1 d) ∧
      (Melting.rc2 ≤ Melting.dist2 Melting.pos_initial 0 1 → ∀ d : Fin 3,
        Melting.contribTo Melting.pos_initial 0 1 d = 0) ∧
      (∀ d : Fin 3, (Melting.computeForces Melting.pos_initial).1 0 d =
        ∑ q ∈ Finset.univ.erase 0, Melting.contribTo Melting.pos_initial 0 q d)) :=
  ⟨by decide, C3_force_law Melting.pos_initial 0 1 (by decide)⟩

namespace Melting

lemma kinTemp_nonneg (n : ℕ) (v : Fin n → Fin 3 → ℝ) : 0 ≤ kinTemp n v := by
  unfold kinTemp mass
  positivity

/-- Multiplying every velocity component by s scales the kinetic
temperature by s ^ 2. -/
lemma kinTemp_smul (n : ℕ) (v : Fin n → Fin 3 → ℝ) (s : ℝ) :
    kinTemp n (fun i d => v i d * s) = s ^ 2 * kinTemp n v := by
  unfold kinTemp
  have hsum : ∑ i : Fin n, ∑ d : Fin 3, (v i d * s) ^ 2 =
      s ^ 2 * ∑ i : Fin n, ∑ d : Fin 3, v i d ^ 2 := by
    rw [Finset.mul_sum]
    refine Finset.sum_congr rfl fun i _ => ?_
    rw [Finset.mul_sum]
    refine Finset.sum_congr rfl fun d _ => ?_
    ring
  rw [hsum]
  ring

/-- Exact effect of the velocity-rescaling thermostat on the kinetic
temperature: the new temperature is T * c / (c + 1e-9), NOT T, because of
the 1e-9 regularizer in the denominator. -/
lemma kinTemp_rescale (n : ℕ) (v : Fin n → Fin 3 → ℝ) (T : ℝ) (hT : 0 ≤ T) :
    kinTemp n (rescale n T v) = T * kinTemp n v / (kinTemp n v + 1e-9) := by
  have hc : (0 : ℝ) < kinTemp n v + 1e-9 := by
    have := kinTemp_nonneg n v
    norm_num
    linarith
  have hq : 0 ≤ T / (kinTemp n v + 1e-9) := div_nonneg hT hc.le
  unfold rescale
  rw [kinTemp_smul n v (Real.sqrt (T / (kinTemp n v + 1e-9))), Real.sq_sqrt hq]
  ring

lemma kinTemp_const_small :
    kinTemp Natoms (fun _ _ => (1e-6 : ℝ)) = 1e-12 := by
  unfold kinTemp mass
  rw [Finset.sum_congr rfl fun i _ => Finset.sum_const ((1e-6 : ℝ) ^ 2),
    Finset.sum_const]
  simp only [Finset.card_univ, Fintype.card_fin, nsmul_eq_mul]
  norm_num

end Melting

/-- C5 counterexample: the thermostat does not bring the kinetic
temperature to the stage target within any floating-point-like tolerance
for every state with N > 0 and nonzero velocities: with all 216 particle
velocity components equal to the nonzero value 1e-6 and target T = 0.2
(the first ramp stage), the post-rescaling temperature is
0.2 * 1e-12 / (1e-12 + 1e-9) = 1/5005, off the target by more than half
the target. -/
theorem C5_counterexample :
    |Melting.kinTemp Melting.Natoms
        (Melting.rescale Melting.Natoms (1 / 5) (fun _ _ => 1e-6)) - 1 / 5| > 1 / 10 ∧
      (fun _ _ => (1e-6 : ℝ)) (0 : Fin Melting.Natoms) (0 : Fin 3) ≠ 0 := by
  constructor
  · rw [Melting.kinTemp_rescale Melting.Natoms (fun _ _ => 1e-6) (1 / 5) (by norm_num),
      Melting.kinTemp_const_small]
    rw [abs_sub_comm, abs_of_pos (by norm_num)]
    norm_num
  · norm_num

/-- C5 amended: after the thermostat rescaling at the end of an MD step,
the instantaneous kinetic temperature equals T * c / (c + 1e-9) exactly,
where c is the pre-rescaling kinetic temperature — close to the target T
only when c is large relative to the 1e-9 regularizer, and never exactly
T when the velocities are nonzero. -/
theorem C5_thermostat_temperature (n : ℕ) (v : Fin n → Fin 3 → ℝ) (T : ℝ)
    (hT : 0 ≤ T) :
    Melting.kinTemp n (Melting.rescale n T v) =
      T * Melting.kinTemp n v / (Melting.kinTemp n v + 1e-9) :=
  Melting.kinTemp_rescale n v T hT

/-- C5 witness: the amended thermostat formula at the 216-particle state
with unit velocities and unit target temperature. -/
theorem C5_thermostat_temperature_witness :
    (0 : ℝ) ≤ 1 ∧
      Melting.kinTemp Melting.Natoms
          (Melting.rescale Melting.Natoms 1 (fun _ _ => 1)) =
        1 * Melting.kinTemp Melting.Natoms (fun _ _ => (1 : ℝ)) /
          (Melting.kinTemp Melting.Natoms (fun _ _ => (1 : ℝ)) + 1e-9) :=
  ⟨by norm_num, C5_thermostat_temperature Melting.Natoms (fun _ _ => 1) 1 (by norm_num)⟩

namespace Melting

lemma boxL_pos : (0 : ℝ) < boxL := by
  unfold boxL Ncell aLat
  norm_num

/-- The Python float modulo lands in [0, boxL). -/
lemma wrapPos_mem (x : ℝ) : 0 ≤ wrapPos x ∧ wrapPos x < boxL := by
  have hb := boxL_pos
  have heq : wrapPos x = boxL * Int.fract (x / boxL) := by
    unfold wrapPos
    have hfr : Int.fract (x / boxL) = x / boxL - ⌊x / boxL⌋ := rfl
    rw [hfr]
    field_simp
  constructor
  · rw [heq]
    exact mul_nonneg hb.le (Int.fract_nonneg _)
  · rw [heq]
    calc boxL * Int.fract (x / boxL) < boxL * 1 :=
        (mul_lt_mul_left hb).mpr (Int.fract_lt_one _)
      _ = boxL := mul_one boxL

/-- Every coordinate of the post-step position lies in [0, boxL). -/
lemma mdStep_pos_bounds (T : ℝ) (pos : Positions) (vel : Velocities)
    (i : Fin Natoms) (d : Fin 3) :
    0 ≤ (mdStep T (pos, vel)).1 i d ∧ (mdStep T (pos, vel)).1 i d < boxL :=
  wrapPos_mem (pos i d +
    clampV (vel i d + 0.5 * (computeForces pos).1 i d / mass * dt) * dt)

lemma stageStep_snaps (T : ℝ) (s : MDState) (step : ℕ) :
    (stageStep T s step).snaps =
      if step % record_interval = 0 then
        s.snaps ++ [(mdStep T (s.pos, s.vel)).1]
      else s.snaps := by
  unfold stageStep
  split <;> rfl

/-- Any snapshot present after a stage fold was either already recorded or
is a post-step position, hence wrapped. -/
lemma stage_snaps_mem (T : ℝ) :
    ∀ (l : List ℕ) (s : MDState) (f : Positions),
      f ∈ (l.foldl (stageStep T) s).snaps →
        f ∈ s.snaps ∨ ∀ i d, 0 ≤ f i d ∧ f i d < boxL := by
  intro l
  induction l with
  | nil => intro s f hf; exact Or.inl hf
  | cons a t ih =>
      intro s f hf
      simp only [List.foldl_cons] at hf
      rcases ih (stageStep T s a) f hf with h | h
      · rw [stageStep_snaps] at h
        by_cases hrec : a % record_interval = 0
        · rw [if_pos hrec] at h
          rcases List.mem_append.mp h with h2 | h2
          · exact Or.inl h2
          · right
            intro i d
            have : f = (mdStep T (s.pos, s.vel)).1 := List.mem_singleton.mp h2
            rw [this]
            exact mdStep_pos_bounds T s.pos s.vel i d
        · rw [if_neg hrec] at h
          exact Or.inl h
      · exact Or.inr h

/-- Same statement along the whole temperature ramp. -/
lemma ramp_snaps_mem :
    ∀ (ts : List ℝ) (s : MDState) (f : Positions),
      f ∈ ((ts.foldl (fun s T => mdStage T s) s).snaps) →
        f ∈ s.snaps ∨ ∀ i d, 0 ≤ f i d ∧ f i d < boxL := by
  intro ts
  induction ts with
  | nil => intro s f hf; exact Or.inl hf
  | cons T rest ih =>
      intro s f hf
      simp only [List.foldl_cons] at hf
      rcases ih (mdStage T s) f hf with h | h
      · unfold mdStage at h
        exact stage_snaps_mem T (List.range steps_per_T) s f h
      · exact Or.inr h

end Melting

/-- C8: after every MD integration step (drift followed by the modulo-boxL
wrap) every coordinate of every particle position lies in [0, boxL), and
the same holds for every recorded snapshot of the full temperature-ramp
run (out-of-range snapshot indices yield the all-zero default, which also
satisfies the bounds); the particle count is fixed at Natoms = 216 by the
state type itself. -/
theorem C8_positions_in_box :
    (∀ (T : ℝ) (pos : Melting.Positions) (vel : Melting.Velocities)
        (i : Fin Melting.Natoms) (d : Fin 3),
      0 ≤ (Melting.mdStep T (pos, vel)).1 i d ∧
        (Melting.mdStep T (pos, vel)).1 i d < Melting.boxL) ∧
    (∀ (v0 : Melting.Velocities) (n : ℕ) (i : Fin Melting.Natoms) (d : Fin 3),
      0 ≤ ((Melting.mdRun v0).snaps.getD n (fun _ _ => 0)) i d ∧
        ((Melting.mdRun v0).snaps.getD n (fun _ _ => 0)) i d < Melting.boxL) := by
  constructor
  · exact Melting.mdStep_pos_bounds
  · intro v0 n i d
    by_cases hn : n < (Melting.mdRun v0).snaps.length
    · have hget : (Melting.mdRun v0).snaps.getD n (fun _ _ => 0) =
          (Melting.mdRun v0).snaps[n] := by
        rw [List.getD_eq_getElem?_getD, List.getElem?_eq_getElem hn]
        rfl
      rw [hget]
      have hmem : (Melting.mdRun v0).snaps[n] ∈ (Melting.mdRun v0).snaps :=
        List.getElem_mem hn
      have h := Melting.ramp_snaps_mem Melting.temps
        ⟨Melting.pos_initial, v0, [], [], []⟩ _ hmem
      rcases h with h | h
      · cases h
      · exact h i d
    · have hget : (Melting.mdRun v0).snaps.getD n (fun _ _ => 0) =
          fun _ _ => (0 : ℝ) := by
        rw [List.getD_eq_getElem?_getD, List.getElem?_eq_none (by omega)]
        rfl
      rw [hget]
      refine ⟨le_refl 0, ?_⟩
      exact Melting.boxL_pos

namespace Melting

lemma stageStep_lengths_rec (T : ℝ) (s : MDState) (step : ℕ)
    (h : step % record_interval = 0) :
    (stageStep T s step).snaps.length = s.snaps.length + 1 ∧
      (stageStep T s step).msds.length = s.msds.length + 1 ∧
      (stageStep T s step).rdfs.length = s.rdfs.length + 1 := by
  unfold stageStep
  rw [if_pos h]
  refine ⟨?_, ?_, ?_⟩ <;> simp

lemma stageStep_lengths_nonrec (T : ℝ) (s : MDState) (step : ℕ)
    (h : ¬step % record_interval = 0) :
    (stageStep T s step).snaps.length = s.snaps.length ∧
      (stageStep T s step).msds.length = s.msds.length ∧
      (stageStep T s step).rdfs.length = s.rdfs.length := by
  unfold stageStep
  rw [if_neg h]
  exact ⟨rfl, rfl, rfl⟩

/-- Per step of a stage, the three recorded series grow together, by the
number of loop counters hitting the record condition. -/
lemma stage_fold_lengths (T : ℝ) :
    ∀ (l : List ℕ) (s : MDState),
      (l.foldl (stageStep T) s).snaps.length =
          s.snaps.length + (l.filter (fun st => st % record_interval = 0)).length ∧
        (l.foldl (stageStep T) s).msds.length =
          s.msds.length + (l.filter (fun st => st % record_interval = 0)).length ∧
        (l.foldl (stageStep T) s).rdfs.length =
          s.rdfs.length + (l.filter (fun st => st % record_interval = 0)).length := by
  intro l
  induction l with
  | nil => intro s; simp
  | cons a t ih =>
      intro s
      simp only [List.foldl_cons]
      obtain ⟨h1, h2, h3⟩ := ih (stageStep T s a)
      by_cases hrec : a % record_interval = 0
      · obtain ⟨g1, g2, g3⟩ := stageStep_lengths_rec T s a hrec
        rw [h1, h2, h3, g1, g2, g3]
        simp only [List.filter_cons, hrec]
        refine ⟨?_, ?_, ?_⟩ <;> simp <;> omega
      · obtain ⟨g1, g2, g3⟩ := stageStep_lengths_nonrec T s a hrec
        rw [h1, h2, h3, g1, g2, g3]
        simp only [List.filter_cons, hrec]
        refine ⟨?_, ?_, ?_⟩ <;> simp

lemma range_filter_length :
    ((List.range steps_per_T).filter (fun st => st % record_interval = 0)).length = 8 := by
  decide

/-- One temperature stage records exactly steps_per_T / record_interval = 8
frames in each of the three series. -/
lemma mdStage_lengths (T : ℝ) (s : MDState) :
    (mdStage T s).snaps.length = s.snaps.length + 8 ∧
      (mdStage T s).msds.length = s.msds.length + 8 ∧
      (mdStage T s).rdfs.length = s.rdfs.length + 8 := by
  unfold mdStage
  obtain ⟨h1, h2, h3⟩ := stage_fold_lengths T (List.range steps_per_T) s
  rw [range_filter_length] at h1 h2 h3
  exact ⟨h1, h2, h3⟩

lemma ramp_lengths :
    ∀ (ts : List ℝ) (s : MDState),
      ((ts.foldl (fun s T => mdStage T s) s).snaps.length =
          s.snaps.length + 8 * ts.length) ∧
        ((ts.foldl (fun s T => mdStage T s) s).msds.length =
          s.msds.length + 8 * ts.length) ∧
        ((ts.foldl (fun s T => mdStage T s) s).rdfs.length =
          s.rdfs.length + 8 * ts.length) := by
  intro ts
  induction ts with
  | nil => intro s; simp
  | cons T rest ih =>
      intro s
      simp only [List.foldl_cons]
      obtain ⟨h1, h2, h3⟩ := ih (mdStage T s)
      obtain ⟨g1, g2, g3⟩ := mdStage_lengths T s
      rw [h1, h2, h3, g1, g2, g3]
      simp only [List.length_cons]
      refine ⟨by omega, by omega, by omega⟩

lemma temps_length : temps.length = 40 := by
  unfold temps
  rw [List.length_map, List.length_range]

lemma flatten_replicate_length (k : ℕ) :
    ∀ l : List ℝ, ((l.map (List.replicate k)).flatten).length = k * l.length := by
  intro l
  induction l with
  | nil => simp
  | cons a t ih =>
      simp only [List.map_cons, List.flatten_cons, List.length_append,
        List.length_replicate, ih, List.length_cons]
      ring

/-- Reading the element-wise repeated list at index n reads the source list
at index n / k. -/
lemma flatten_replicate_getD (k : ℕ) (hk : 0 < k) :
    ∀ (l : List ℝ) (n : ℕ) (d0 : ℝ),
      ((l.map (List.replicate k)).flatten).getD n d0 = l.getD (n / k) d0 := by
  intro l
  induction l with
  | nil => intro n d0; simp
  | cons a t ih =>
      intro n d0
      simp only [List.map_cons, List.flatten_cons]
      by_cases hn : n < k
      · rw [List.getD_append _ _ _ _ (by simpa using hn)]
        have h1 : (List.replicate k a).getD n d0 = a := by
          rw [List.getD_eq_getElem?_getD, List.getElem?_replicate, if_pos hn]
          rfl
        rw [h1, Nat.div_eq_of_lt hn]
        rfl
      · obtain ⟨m, rfl⟩ := Nat.exists_eq_add_of_le (Nat.le_of_not_lt hn)
        rw [List.getD_append_right _ _ _ _ (by simp)]
        simp only [List.length_replicate, Nat.add_sub_cancel_left]
        rw [ih m d0]
        have hdiv : (k + m) / k = m / k + 1 := by
          rw [Nat.add_comm, Nat.add_div_right m hk]
        rw [hdiv]
        rfl

/-- The snapshot list only ever grows along a stage. -/
lemma stage_fold_snaps_append (T : ℝ) :
    ∀ (l : List ℕ) (s : MDState),
      ∃ extra, (l.foldl (stageStep T) s).snaps = s.snaps ++ extra := by
  intro l
  induction l with
  | nil => intro s; exact ⟨[], by simp⟩
  | cons a t ih =>
      intro s
      simp only [List.foldl_cons]
      obtain ⟨extra, hex⟩ := ih (stageStep T s a)
      rw [hex, stageStep_snaps]
      by_cases hrec : a % record_interval = 0
      · rw [if_pos hrec]
        exact ⟨[(mdStep T (s.pos, s.vel)).1] ++ extra, by rw [List.append_assoc]⟩
      · rw [if_neg hrec]
        exact ⟨extra, rfl⟩

/-- The snapshot list only ever grows along the ramp. -/
lemma ramp_snaps_append :
    ∀ (ts : List ℝ) (s : MDState),
      ∃ extra, (ts.foldl (fun s T => mdStage T s) s).snaps = s.snaps ++ extra := by
  intro ts
  induction ts with
  | nil => intro s; exact ⟨[], by simp⟩
  | cons T rest ih =>
      intro s
      simp only [List.foldl_cons]
      obtain ⟨e1, he1⟩ := ih (mdStage T s)
      obtain ⟨e0, he0⟩ := stage_fold_snaps_append T (List.range steps_per_T) s
      refine ⟨e0 ++ e1, ?_⟩
      rw [he1]
      unfold mdStage
      rw [he0, List.append_assoc]

end Melting

/-- C9: the four per-frame MD output series are consistent: snapshots, MSD
values and RDF histograms are recorded together and all have exactly
8 * 40 = 320 entries with the reference parameters; the saved temps array
(temps.repeat(8)) also has 320 entries and its n-th entry is the ramp
target of stage n / 8; and the first 8 * m recorded frames are exactly the
frames recorded during the first m stages, so the shared ordering is by
stage.  (The per-frame payload shapes [Natoms, 3] and [n_bins] are fixed
by the types of the entries.) -/
theorem C9_output_series_consistent (v0 : Melting.Velocities) :
    (Melting.mdRun v0).snaps.length = 320 ∧
      (Melting.mdRun v0).msds.length = 320 ∧
      (Melting.mdRun v0).rdfs.length = 320 ∧
      Melting.tempsSaved.length = 320 ∧
      (∀ n : ℕ, Melting.tempsSaved.getD n 0 = Melting.temps.getD (n / 8) 0) ∧
      (∀ m : ℕ,
        (Melting.mdRun v0).snaps.take (8 * (Melting.temps.take m).length) =
          ((Melting.temps.take m).foldl (fun s T => Melting.mdStage T s)
            ⟨Melting.pos_initial, v0, [], [], []⟩).snaps) := by
  obtain ⟨h1, h2, h3⟩ := Melting.ramp_lengths Melting.temps
    ⟨Melting.pos_initial, v0, [], [], []⟩
  have hlen : Melting.temps.length = 40 := Melting.temps_length
  refine ⟨?_, ?_, ?_, ?_, ?_, ?_⟩
  · show (Melting.mdRun v0).snaps.length = 320
    unfold Melting.mdRun
    rw [h1, hlen]
    simp
  · show (Melting.mdRun v0).msds.length = 320
    unfold Melting.mdRun
    rw [h2, hlen]
    simp
  · show (Melting.mdRun v0).rdfs.length = 320
    unfold Melting.mdRun
    rw [h3, hlen]
    simp
  · show Melting.tempsSaved.length = 320
    unfold Melting.tempsSaved
    rw [Melting.flatten_replicate_length, hlen]
    decide
  · intro n
    show Melting.tempsSaved.getD n 0 = Melting.temps.getD (n / 8) 0
    unfold Melting.tempsSaved
    have h8 : Melting.steps_per_T / Melting.record_interval = 8 := by decide
    rw [h8]
    exact Melting.flatten_replicate_getD 8 (by norm_num) Melting.temps n 0
  · intro m
    have hsplit := (List.take_append_drop m Melting.temps).symm
    have hfull : Melting.mdRun v0 =
        (Melting.temps.drop m).foldl (fun s T => Melting.mdStage T s)
          ((Melting.temps.take m).foldl (fun s T => Melting.mdStage T s)
            ⟨Melting.pos_initial, v0, [], [], []⟩) := by
      unfold Melting.mdRun
      conv_lhs => rw [hsplit]
      rw [List.foldl_append]
    obtain ⟨extra, hex⟩ := Melting.ramp_snaps_append (Melting.temps.drop m)
      ((Melting.temps.take m).foldl (fun s T => Melting.mdStage T s)
        ⟨Melting.pos_initial, v0, [], [], []⟩)
    obtain ⟨p1, -, -⟩ := Melting.ramp_lengths (Melting.temps.take m)
      ⟨Melting.pos_initial, v0, [], [], []⟩
    have hplen : ((Melting.temps.take m).foldl (fun s T => Melting.mdStage T s)
        ⟨Melting.pos_initial, v0, [], [], []⟩).snaps.length =
        8 * (Melting.temps.take m).length := by
      rw [p1]
      simp
    rw [hfull, hex, ← hplen, List.take_left]

end
